import Mathlib

/-!
Verification of the asynchronous job/queue subsystem of the firecrawl MCP
server (sources: `src/tools/utils.ts`, `src/tools/batch.ts`,
`src/tools/client.ts`).

The TypeScript code is shallowly embedded: pure logic becomes Lean
functions, the mutable module state (`batchOperations`, `operationCounter`,
the `PQueue`, `creditUsage`) becomes an explicit `SystemState` threaded
through step functions, and JavaScript exceptions become `Except String`.
-/

namespace Firecrawl

/-! ## Configuration (`client.ts`, `CONFIG`)

`CONFIG.retry` and `CONFIG.credit` are read once at startup from the
environment with the defaults below (`client.ts` lines 26-42).  They are
modelled as parameters so that theorems quantify over every configuration;
the default values are recorded for concrete witnesses. -/

structure RetryConfig where
  maxAttempts : Nat
  initialDelay : Nat
  maxDelay : Nat
  backoffFactor : Nat
deriving Repr, DecidableEq

/-- `client.ts`: maxAttempts 3, initialDelay 1000, maxDelay 10000,
backoffFactor 2. -/
def defaultRetryConfig : RetryConfig :=
  { maxAttempts := 3, initialDelay := 1000, maxDelay := 10000, backoffFactor := 2 }

structure CreditConfig where
  warningThreshold : Int
  criticalThreshold : Int
deriving Repr, DecidableEq

/-- `client.ts`: warningThreshold 1000, criticalThreshold 100 (note the
defaults put the critical threshold *below* the warning threshold). -/
def defaultCreditConfig : CreditConfig :=
  { warningThreshold := 1000, criticalThreshold := 100 }

/-! ## Call Executor (`utils.ts`, `withRetry`)

The backend is an opaque operation; one invocation of `withRetry` performs
a sequence of calls, so the backend is modelled as a function from the call
index (0-based: how many calls this `withRetry` invocation already made) to
an outcome.  An outcome is either a value or a thrown error; `withRetry`
classifies a thrown error by the rate-limit test on `utils.ts` lines 57-63,
which we keep abstract as a Boolean on the error. -/

inductive CallOutcome (α : Type) where
  | ok (v : α)
  | thrown (isRateLimit : Bool) (msg : String)
deriving Repr, DecidableEq

/-- The delay expression of `utils.ts` lines 66-70:
`Math.min(initialDelay * Math.pow(backoffFactor, attempt - 1), maxDelay)`. -/
def computeDelay (cfg : RetryConfig) (attempt : Nat) : Nat :=
  min (cfg.initialDelay * cfg.backoffFactor ^ (attempt - 1)) cfg.maxDelay

/-- Observable trace of one `withRetry` invocation: the final result (the
returned value or the re-thrown error message), the number of backend
calls performed, and the sleeps (`await delay(delayMs)`) in order. -/
structure RetryTrace (α : Type) where
  result : Except String α
  calls : Nat
  delays : List Nat
deriving Repr

/-- `utils.ts` lines 42-87.  `attempt` starts at 1 (the default argument);
`idx` is the 0-based index of the next backend call.  On an error that is
rate limited while `attempt < maxAttempts`, sleep `computeDelay attempt`
and recurse with `attempt + 1`; otherwise re-throw. -/
def withRetry {α : Type} (cfg : RetryConfig) (backend : Nat → CallOutcome α)
    (attempt : Nat) (idx : Nat) : RetryTrace α :=
  match backend idx with
  | .ok v => { result := .ok v, calls := 1, delays := [] }
  | .thrown isRateLimit msg =>
    if h : isRateLimit = true ∧ attempt < cfg.maxAttempts then
      let rest := withRetry cfg backend (attempt + 1) (idx + 1)
      { result := rest.result, calls := rest.calls + 1,
        delays := computeDelay cfg attempt :: rest.delays }
    else
      { result := .error msg, calls := 1, delays := [] }
termination_by cfg.maxAttempts - attempt
decreasing_by omega

/-! ## Usage Meter (`utils.ts`, `updateCreditUsage`)

`creditUsage` is module state `{ total, lastCheck }`; `lastCheck` is never
written after initialisation, and `total` only by `updateCreditUsage`.
The `safeLog` calls at `critical`/`warning` level are the threshold
notifications; we record them explicitly. -/

structure CreditUsage where
  total : Int
  lastCheck : Int
deriving Repr, DecidableEq

inductive CreditNotif where
  | warning
  | critical
deriving Repr, DecidableEq

/-- `utils.ts` lines 90-112: early-return when self-hosted; otherwise add
`creditsUsed` to the total, then `if total >= criticalThreshold` emit
critical `else if total >= warningThreshold` emit warning. -/
def updateCreditUsage (isSelfHosted : Bool) (cfg : CreditConfig)
    (st : CreditUsage) (creditsUsed : Int) : CreditUsage × List CreditNotif :=
  if isSelfHosted then (st, [])
  else
    let st' : CreditUsage := { st with total := st.total + creditsUsed }
    if cfg.criticalThreshold ≤ st'.total then (st', [.critical])
    else if cfg.warningThreshold ≤ st'.total then (st', [.warning])
    else (st', [])

/-- A sequence of `record` calls; returns the final counter and the list of
notification batches, one batch per call, in call order. -/
def runRecords (isSelfHosted : Bool) (cfg : CreditConfig) :
    CreditUsage → List Int → CreditUsage × List (List CreditNotif)
  | st, [] => (st, [])
  | st, c :: cs =>
    let (st', ns) := updateCreditUsage isSelfHosted cfg st c
    let (stFin, rest) := runRecords isSelfHosted cfg st' cs
    (stFin, ns :: rest)

/-! ## Job records (`batch.ts`, `QueuedBatchOperation`)

The `options` bag is opaque to the subsystem (passed through verbatim to
the backend) and no claim mentions it, so it is not carried. -/

inductive JobStatus where
  | pending
  | processing
  | completed
  | failed
deriving Repr, DecidableEq

/-- The shape of the backend response consumed by `processBatchOperation`
(`batch.ts` lines 116-132): a success flag, an optional error message, and
an optional `creditsUsed` field (`hasCredits`). -/
structure BatchResponse where
  success : Bool
  errMsg : Option String
  creditsUsed : Option Int
deriving Repr, DecidableEq

structure Progress where
  completed : Nat
  total : Nat
deriving Repr, DecidableEq

structure Operation where
  id : String
  urls : List String
  status : JobStatus
  progress : Progress
  result : Option BatchResponse
  error : Option String
deriving Repr, DecidableEq

/-! ## Module state of `batch.ts`

`batchOperations : Map<string, QueuedBatchOperation>` becomes an
association list (later insertions in front; ids are fresh, see
`mkJobId_injective` below).  The `PQueue({concurrency: 1})` becomes a FIFO
list of the ids of not-yet-started jobs plus the id currently being
processed (`active`).  In JavaScript the queued closure captures the very
object stored in the map; keeping only ids in the queue and looking the
record up in the store models that aliasing. -/

structure SystemState where
  operations : List (String × Operation)
  counter : Nat
  queue : List String
  active : Option String
  credit : CreditUsage
deriving Repr, DecidableEq

def initState : SystemState :=
  { operations := [], counter := 0, queue := [], active := none,
    credit := { total := 0, lastCheck := 0 } }

/-- Lookup in the underlying association list of the `Map`. -/
def findOp (l : List (String × Operation)) (id : String) : Option Operation :=
  (l.find? fun p => p.1 == id).map Prod.snd

/-- Overwrite the value stored under `id` in the association list. -/
def setEntries (l : List (String × Operation)) (id : String) (op : Operation) :
    List (String × Operation) :=
  l.map fun p => if p.1 == id then (p.1, op) else p

/-- `batchOperations.get(id)`. -/
def lookupOp (s : SystemState) (id : String) : Option Operation :=
  findOp s.operations id

/-- In-place mutation of the record stored under `id`. -/
def setOp (s : SystemState) (id : String) (op : Operation) : SystemState :=
  { s with operations := setEntries s.operations id op }

/-- `` `batch_${++operationCounter}` `` (`batch.ts` line 225). -/
def mkJobId (n : Nat) : String :=
  "batch_" ++ Nat.repr n

/-- The submission handler's happy path (`batch.ts` lines 224-240): bump
the counter, create the record `pending` with `progress = {0, urls.length}`,
store it, and add the processing closure to the queue.  Returns the new
state and the id echoed to the caller. -/
def submitBatch (s : SystemState) (urls : List String) : SystemState × String :=
  let n := s.counter + 1
  let id := mkJobId n
  let op : Operation :=
    { id := id, urls := urls, status := .pending,
      progress := { completed := 0, total := urls.length },
      result := none, error := none }
  ({ s with
       operations := (id, op) :: s.operations
       counter := n
       queue := s.queue ++ [id] }, id)

/-- The tail of `processBatchOperation` after the `withRetry` call has
produced `r` (`batch.ts` lines 116-145), written with the thrown error
explicit: `throw` when `!response.success`, otherwise mark completed,
store the response, and set `progress.completed = progress.total`. -/
def processBody (op : Operation) (r : Except String BatchResponse) :
    Except String Operation := do
  let response ← r
  if response.success then
    pure { op with
             status := .completed
             result := some response
             progress := { op.progress with completed := op.progress.total } }
  else
    throw (response.errMsg.getD "Batch operation failed in Firecrawl API")

/-- The `catch` block of `processBatchOperation` (`batch.ts` lines
146-150): any error is captured into the record — status `failed`, `error`
set to the message — and nothing is re-thrown. -/
def finishOperation (op : Operation) (r : Except String BatchResponse) : Operation :=
  match processBody op r with
  | .ok op' => op'
  | .error e => { op with status := .failed, error := some e }

/-- The credit tracking inside the success path (`batch.ts` lines
129-132): `if (!CONFIG.apiUrl && hasCredits(response))` update the meter
(`isSelfHosted` is exactly `!!CONFIG.apiUrl`, `client.ts` line 46). -/
def trackCredits (isSelfHosted : Bool) (ccfg : CreditConfig)
    (credit : CreditUsage) (r : Except String BatchResponse) : CreditUsage :=
  match r with
  | .ok response =>
    if response.success && !isSelfHosted then
      match response.creditsUsed with
      | some c => (updateCreditUsage isSelfHosted ccfg credit c).1
      | none => credit
    else credit
  | .error _ => credit

/-- The queue starts the next job: with no job active and a non-empty
queue, dequeue the head and run the first statement of
`processBatchOperation` (`operation.status = "processing"`, `batch.ts`
line 109). -/
def workerStart (s : SystemState) : SystemState :=
  match s.active, s.queue with
  | none, id :: rest =>
    match lookupOp s id with
    | some op => { setOp s id { op with status := .processing } with
                     queue := rest
                     active := some id }
    | none => { s with queue := rest, active := none }
  | _, _ => s

/-- The rest of `processBatchOperation` for the active job, where `r` is
what the `withRetry`-wrapped backend call produced: record the terminal
state via `finishOperation`, meter credits on success, release the
worker. -/
def workerFinish (isSelfHosted : Bool) (ccfg : CreditConfig)
    (s : SystemState) (r : Except String BatchResponse) : SystemState :=
  match s.active with
  | none => s
  | some id =>
    match lookupOp s id with
    | none => { s with active := none }
    | some op =>
      let s1 := setOp s id (finishOperation op r)
      { s1 with
          active := none
          credit := trackCredits isSelfHosted ccfg s1.credit r }

/-- One full pass of the worker over one job. -/
def workerCycle (isSelfHosted : Bool) (ccfg : CreditConfig)
    (s : SystemState) (r : Except String BatchResponse) : SystemState :=
  workerFinish isSelfHosted ccfg (workerStart s) r

/-- The worker loop consuming one backend result per queued job, in
order. -/
def runQueue (isSelfHosted : Bool) (ccfg : CreditConfig) :
    SystemState → List (Except String BatchResponse) → SystemState
  | s, [] => s
  | s, r :: rs => runQueue isSelfHosted ccfg (workerCycle isSelfHosted ccfg s r) rs

/-! ## Status Reporter (`batch.ts` lines 350-393) -/

/-- The caller-facing projection built by the status handler: the distinct
"not found" text, or the record's id, status and progress, with the error
line appended exactly when `status === "failed" && operation.error` and
the result-available line exactly when `status === "completed" &&
operation.result`. -/
inductive StatusOutcome where
  | notFound (id : String)
  | payload (id : String) (status : JobStatus) (completed total : Nat)
      (errorLine : Option String) (resultAvailable : Bool)
deriving Repr, DecidableEq

/-- The status handler: a map lookup and a formatting step; it writes
nothing, which the returned (unchanged) state makes explicit. -/
def checkBatchStatus (s : SystemState) (id : String) : StatusOutcome × SystemState :=
  match lookupOp s id with
  | none => (.notFound id, s)
  | some op =>
    (.payload op.id op.status op.progress.completed op.progress.total
      (if op.status = .failed ∧ op.error.isSome then op.error else none)
      (decide (op.status = .completed) && op.result.isSome), s)

/-! ## The transition system

Steps are the three state-changing entry points.  The `.catch` attached to
`batchQueue.add` (`batch.ts` lines 241-250) is not a step: its callback
runs only if the queued task's promise rejects, and `processBatchOperation`
catches every error and returns normally, so that promise never rejects. -/

inductive Step (isSelfHosted : Bool) (ccfg : CreditConfig) :
    SystemState → SystemState → Prop where
  | submit (s : SystemState) (urls : List String) :
      Step isSelfHosted ccfg s (submitBatch s urls).1
  | start (s : SystemState) :
      Step isSelfHosted ccfg s (workerStart s)
  | finish (s : SystemState) (r : Except String BatchResponse) :
      Step isSelfHosted ccfg s (workerFinish isSelfHosted ccfg s r)

inductive Reachable (isSelfHosted : Bool) (ccfg : CreditConfig) : SystemState → Prop where
  | init : Reachable isSelfHosted ccfg initState
  | step {s s' : SystemState} : Reachable isSelfHosted ccfg s →
      Step isSelfHosted ccfg s s' → Reachable isSelfHosted ccfg s'

/-! ## Freshness of job ids

`submitBatch` keys the registry with `mkJobId (counter + 1)`.  Distinct
counters give distinct ids because decimal rendering is injective; we
prove that by reading the rendered digits back. -/

/-- Decimal value of a digit-character list (decoder for `Nat.repr`). -/
def digitsVal (ds : List Char) : Nat :=
  ds.foldl (fun acc c => acc * 10 + (c.toNat - 48)) 0

theorem digitChar_toNat {m : Nat} (hm : m < 10) : (Nat.digitChar m).toNat = 48 + m := by
  interval_cases m <;> rfl

/-- Folding the decimal decoder over what `Nat.toDigitsCore 10` produces
continues into the accumulator with the rendered number as the seed. -/
theorem toDigitsCore_foldl :
    ∀ (fuel n : Nat) (acc : List Char), n < fuel →
      (Nat.toDigitsCore 10 fuel n acc).foldl (fun a c => a * 10 + (c.toNat - 48)) 0 =
        acc.foldl (fun a c => a * 10 + (c.toNat - 48)) n
  | 0, n, _, h => absurd h (Nat.not_lt_zero n)
  | fuel + 1, n, acc, h => by
    have hstep : Nat.toDigitsCore 10 (fuel + 1) n acc =
        if n / 10 = 0 then Nat.digitChar (n % 10) :: acc
        else Nat.toDigitsCore 10 fuel (n / 10) (Nat.digitChar (n % 10) :: acc) := rfl
    have hchar : (Nat.digitChar (n % 10)).toNat = 48 + n % 10 := digitChar_toNat (by omega)
    rw [hstep]
    by_cases hdiv : n / 10 = 0
    · rw [if_pos hdiv]
      simp only [List.foldl_cons, hchar]
      have hseed : 0 * 10 + (48 + n % 10 - 48) = n := by omega
      rw [hseed]
    · rw [if_neg hdiv]
      rw [toDigitsCore_foldl fuel (n / 10) (Nat.digitChar (n % 10) :: acc) (by omega)]
      simp only [List.foldl_cons, hchar]
      have hseed : n / 10 * 10 + (48 + n % 10 - 48) = n := by omega
      rw [hseed]

/-- Reading the decimal rendering back gives the number rendered. -/
theorem digitsVal_repr (n : Nat) : digitsVal (Nat.repr n).data = n := by
  have h := toDigitsCore_foldl (n + 1) n [] (Nat.lt_succ_self n)
  exact h

theorem Nat_repr_injective : Function.Injective Nat.repr := by
  intro a b h
  have ha := digitsVal_repr a
  rw [h, digitsVal_repr b] at ha
  exact ha.symm

theorem mkJobId_injective : Function.Injective mkJobId := by
  intro a b h
  apply Nat_repr_injective
  have hdata : ("batch_" ++ Nat.repr a).data = ("batch_" ++ Nat.repr b).data :=
    congrArg String.data h
  simp only [String.data_append] at hdata
  exact String.ext (List.append_cancel_left hdata)

/-! ## Association-list lemmas -/

theorem findOp_nil (id : String) : findOp [] id = none := rfl

theorem findOp_cons (k : String) (v : Operation) (l : List (String × Operation))
    (id : String) :
    findOp ((k, v) :: l) id = if k == id then some v else findOp l id := by
  by_cases h : k == id
  · simp [findOp, List.find?_cons_of_pos, h]
  · simp only [Bool.not_eq_true] at h
    simp [findOp, List.find?_cons_of_neg, h]

theorem setEntries_cons (a : String) (b : Operation) (t : List (String × Operation))
    (id : String) (op : Operation) :
    setEntries ((a, b) :: t) id op =
      (if a == id then (a, op) else (a, b)) :: setEntries t id op := rfl

theorem findOp_mem {l : List (String × Operation)} {id : String} {op : Operation}
    (h : findOp l id = some op) : (id, op) ∈ l := by
  unfold findOp at h
  cases hf : l.find? (fun p => p.1 == id) with
  | none => rw [hf] at h; simp at h
  | some p =>
    rw [hf] at h
    have hp := List.find?_some hf
    have hmem := List.mem_of_find?_eq_some hf
    have h1 : p.1 = id := by simpa using hp
    have h2 : p.2 = op := by simpa using h
    have : p = (id, op) := by
      cases p with
      | mk a b => simp_all
    rwa [this] at hmem

theorem findOp_eq_none_iff {l : List (String × Operation)} {id : String} :
    findOp l id = none ↔ ∀ p ∈ l, p.1 ≠ id := by
  unfold findOp
  rw [Option.map_eq_none', List.find?_eq_none]
  constructor
  · intro h p hp
    have := h p hp
    simpa using this
  · intro h p hp
    simpa using h p hp

theorem findOp_set_self (l : List (String × Operation)) (id : String) (op : Operation) :
    findOp (setEntries l id op) id = (findOp l id).map fun _ => op := by
  induction l with
  | nil => rfl
  | cons q t ih =>
    obtain ⟨a, b⟩ := q
    by_cases ha : a = id
    · subst ha
      simp [setEntries_cons, findOp_cons]
    · simp [setEntries_cons, findOp_cons, ha, ih]

theorem findOp_set_ne (l : List (String × Operation)) (id : String) (op : Operation)
    (id' : String) (h : id' ≠ id) :
    findOp (setEntries l id op) id' = findOp l id' := by
  induction l with
  | nil => rfl
  | cons q t ih =>
    obtain ⟨a, b⟩ := q
    by_cases ha : a = id
    · subst ha
      have : a ≠ id' := fun hc => h hc.symm
      simp [setEntries_cons, findOp_cons, this, ih]
    · by_cases hb : a = id'
      · subst hb
        simp [setEntries_cons, findOp_cons, ha]
      · simp [setEntries_cons, findOp_cons, ha, hb, ih]

theorem setEntries_keys (l : List (String × Operation)) (id : String) (op : Operation) :
    (setEntries l id op).map Prod.fst = l.map Prod.fst := by
  induction l with
  | nil => rfl
  | cons q t ih =>
    obtain ⟨a, b⟩ := q
    by_cases ha : a = id
    · simp [setEntries_cons, ha, ih]
    · simp [setEntries_cons, ha, ih]

/-! ## The reachability invariant -/

/-- Shape invariant of a single record (spec §3 data model). -/
structure OpWf (op : Operation) : Prop where
  total_eq : op.progress.total = op.urls.length
  completed_le : op.progress.completed ≤ op.progress.total
  pending_clean : op.status = .pending →
    op.progress.completed = 0 ∧ op.result = none ∧ op.error = none
  processing_clean : op.status = .processing →
    op.progress.completed = 0 ∧ op.result = none ∧ op.error = none
  completed_shape : op.status = .completed →
    op.result.isSome = true ∧ op.error = none ∧ op.progress.completed = op.progress.total
  failed_shape : op.status = .failed →
    op.result = none ∧ op.error.isSome = true

/-- Global invariant of the module state, preserved by every step. -/
structure Inv (s : SystemState) : Prop where
  key_id : ∀ p ∈ s.operations, p.2.id = p.1
  key_bound : ∀ p ∈ s.operations, ∃ j, 1 ≤ j ∧ j ≤ s.counter ∧ p.1 = mkJobId j
  ops_wf : ∀ p ∈ s.operations, OpWf p.2
  queue_pending : ∀ id ∈ s.queue, ∃ op, lookupOp s id = some op ∧ op.status = .pending
  active_processing : ∀ id, s.active = some id →
    ∃ op, lookupOp s id = some op ∧ op.status = .processing
  queue_nodup : s.queue.Nodup

theorem inv_init : Inv initState := by
  constructor <;> simp [initState, lookupOp, findOp]

/-- The id minted by the next submission is not yet a key. -/
theorem fresh_key {s : SystemState} (hInv : Inv s) :
    lookupOp s (mkJobId (s.counter + 1)) = none := by
  rw [lookupOp, findOp_eq_none_iff]
  intro p hp hcontra
  obtain ⟨j, hj1, hj2, hj3⟩ := hInv.key_bound p hp
  rw [hj3] at hcontra
  have := mkJobId_injective hcontra
  omega

/-- Ids that resolve to a record stay distinct from the next minted id. -/
theorem lookup_ne_fresh {s : SystemState} (hInv : Inv s) {id : String} {op : Operation}
    (h : lookupOp s id = some op) : id ≠ mkJobId (s.counter + 1) := by
  intro hc
  rw [hc, fresh_key hInv] at h
  exact Option.noConfusion h

/-! ## Step preservation lemmas -/

theorem lookup_submit {s : SystemState} (urls : List String) (id : String) :
    lookupOp (submitBatch s urls).1 id =
      if mkJobId (s.counter + 1) == id
      then some { id := mkJobId (s.counter + 1), urls := urls, status := .pending,
                  progress := { completed := 0, total := urls.length },
                  result := none, error := none }
      else lookupOp s id := by
  simp only [submitBatch, lookupOp]
  rw [findOp_cons]

theorem lookup_submit_old {s : SystemState} (hInv : Inv s) (urls : List String)
    {id : String} {op : Operation} (hop : lookupOp s id = some op) :
    lookupOp (submitBatch s urls).1 id = some op := by
  rw [lookup_submit]
  have hne : id ≠ mkJobId (s.counter + 1) := lookup_ne_fresh hInv hop
  have hfalse : (mkJobId (s.counter + 1) == id) = false := by
    simpa using fun hc => hne hc.symm
  rw [hfalse]
  simpa using hop

theorem inv_submit {s : SystemState} (hInv : Inv s) (urls : List String) :
    Inv (submitBatch s urls).1 := by
  constructor
  · intro p hp
    simp only [submitBatch] at hp
    rcases List.mem_cons.mp hp with rfl | hmem
    · rfl
    · exact hInv.key_id p hmem
  · intro p hp
    simp only [submitBatch] at hp ⊢
    rcases List.mem_cons.mp hp with rfl | hmem
    · exact ⟨s.counter + 1, by omega, Nat.le_refl _, rfl⟩
    · obtain ⟨j, h1, h2, h3⟩ := hInv.key_bound p hmem
      exact ⟨j, h1, Nat.le_succ_of_le h2, h3⟩
  · intro p hp
    simp only [submitBatch] at hp
    rcases List.mem_cons.mp hp with rfl | hmem
    · exact ⟨rfl, by simp, fun _ => ⟨rfl, rfl, rfl⟩,
        by intro h; exact JobStatus.noConfusion h,
        by intro h; exact JobStatus.noConfusion h,
        by intro h; exact JobStatus.noConfusion h⟩
    · exact hInv.ops_wf p hmem
  · intro id hid
    have hq : (submitBatch s urls).1.queue = s.queue ++ [mkJobId (s.counter + 1)] := rfl
    rw [hq, List.mem_append] at hid
    rcases hid with hold | hnew
    · obtain ⟨op, hop, hst⟩ := hInv.queue_pending id hold
      exact ⟨op, lookup_submit_old hInv urls hop, hst⟩
    · have hid' : id = mkJobId (s.counter + 1) := by simpa using hnew
      subst hid'
      refine ⟨{ id := mkJobId (s.counter + 1), urls := urls, status := .pending,
                progress := { completed := 0, total := urls.length },
                result := none, error := none }, ?_, rfl⟩
      rw [lookup_submit]
      simp
  · intro id hid
    have ha : (submitBatch s urls).1.active = s.active := rfl
    rw [ha] at hid
    obtain ⟨op, hop, hst⟩ := hInv.active_processing id hid
    exact ⟨op, lookup_submit_old hInv urls hop, hst⟩
  · have hq : (submitBatch s urls).1.queue = s.queue ++ [mkJobId (s.counter + 1)] := rfl
    rw [hq]
    refine List.Nodup.append hInv.queue_nodup (List.nodup_singleton _) ?_
    intro id hid hmem
    obtain ⟨op, hop, _⟩ := hInv.queue_pending id hid
    have : id = mkJobId (s.counter + 1) := by simpa using hmem
    exact lookup_ne_fresh hInv hop this

/-! ### `finishOperation` case analysis -/

/-- The three outcomes of the worker body: success, backend-reported
failure (the thrown `Error` from `batch.ts` line 123), or a propagated
exception from `withRetry`. -/
theorem finishOperation_cases (op : Operation) (r : Except String BatchResponse) :
    (∃ resp, r = .ok resp ∧ resp.success = true ∧
      finishOperation op r =
        { op with
            status := .completed
            result := some resp
            progress := { op.progress with completed := op.progress.total } }) ∨
    (∃ resp, r = .ok resp ∧ resp.success = false ∧
      finishOperation op r =
        { op with
            status := .failed
            error := some (resp.errMsg.getD "Batch operation failed in Firecrawl API") }) ∨
    (∃ msg, r = .error msg ∧
      finishOperation op r = { op with status := .failed, error := some msg }) := by
  cases r with
  | error msg => exact Or.inr (Or.inr ⟨msg, rfl, rfl⟩)
  | ok resp =>
    obtain ⟨succ, em, cu⟩ := resp
    cases succ with
    | true => exact Or.inl ⟨_, rfl, rfl, rfl⟩
    | false => exact Or.inr (Or.inl ⟨_, rfl, rfl, rfl⟩)

theorem finishOperation_id (op : Operation) (r : Except String BatchResponse) :
    (finishOperation op r).id = op.id := by
  rcases finishOperation_cases op r with ⟨_, _, _, h⟩ | ⟨_, _, _, h⟩ | ⟨_, _, h⟩ <;>
    rw [h]

theorem finishOperation_total (op : Operation) (r : Except String BatchResponse) :
    (finishOperation op r).progress.total = op.progress.total := by
  rcases finishOperation_cases op r with ⟨_, _, _, h⟩ | ⟨_, _, _, h⟩ | ⟨_, _, h⟩ <;>
    rw [h]

theorem finishOperation_terminal (op : Operation) (r : Except String BatchResponse) :
    (finishOperation op r).status = .completed ∨ (finishOperation op r).status = .failed := by
  rcases finishOperation_cases op r with ⟨_, _, _, h⟩ | ⟨_, _, _, h⟩ | ⟨_, _, h⟩ <;>
    rw [h]
  · exact Or.inl rfl
  · exact Or.inr rfl
  · exact Or.inr rfl

theorem opWf_finish {op : Operation} (hwf : OpWf op) (hst : op.status = .processing)
    (r : Except String BatchResponse) : OpWf (finishOperation op r) := by
  obtain ⟨h0, hres, herr⟩ := hwf.processing_clean hst
  rcases finishOperation_cases op r with ⟨resp, _, _, h⟩ | ⟨resp, _, _, h⟩ | ⟨msg, _, h⟩ <;>
    rw [h]
  · exact ⟨hwf.total_eq, Nat.le_refl _,
      fun hc => JobStatus.noConfusion hc,
      fun hc => JobStatus.noConfusion hc,
      fun _ => ⟨rfl, herr, rfl⟩,
      fun hc => JobStatus.noConfusion hc⟩
  · exact ⟨hwf.total_eq, hwf.completed_le,
      fun hc => JobStatus.noConfusion hc,
      fun hc => JobStatus.noConfusion hc,
      fun hc => JobStatus.noConfusion hc,
      fun _ => ⟨hres, rfl⟩⟩
  · exact ⟨hwf.total_eq, hwf.completed_le,
      fun hc => JobStatus.noConfusion hc,
      fun hc => JobStatus.noConfusion hc,
      fun hc => JobStatus.noConfusion hc,
      fun _ => ⟨hres, rfl⟩⟩

/-! ### Lookup through `setOp` and through the worker steps -/

theorem lookupOp_setOp_self (s : SystemState) (id : String) (op : Operation) :
    lookupOp (setOp s id op) id = (lookupOp s id).map fun _ => op :=
  findOp_set_self s.operations id op

theorem lookupOp_setOp_ne (s : SystemState) (id : String) (op : Operation)
    (id' : String) (h : id' ≠ id) :
    lookupOp (setOp s id op) id' = lookupOp s id' :=
  findOp_set_ne s.operations id op id' h

/-! ### Lookup through `setOp` and the worker steps -/

theorem lookupOp_mk (ops : List (String × Operation)) (c : Nat) (q : List String)
    (a : Option String) (cr : CreditUsage) (id : String) :
    lookupOp ⟨ops, c, q, a, cr⟩ id = findOp ops id := rfl

theorem mem_setEntries {l : List (String × Operation)} {id : String} {op : Operation}
    {p : String × Operation} (hp : p ∈ setEntries l id op) :
    ∃ q ∈ l, p = if q.1 == id then (q.1, op) else q := by
  obtain ⟨q, hq, hfq⟩ := List.mem_map.mp hp
  exact ⟨q, hq, hfq.symm⟩

theorem workerStart_noop_active {s : SystemState} {a : String}
    (hA : s.active = some a) : workerStart s = s := by
  unfold workerStart
  rw [hA]

theorem workerStart_noop_empty {s : SystemState}
    (hA : s.active = none) (hQ : s.queue = []) : workerStart s = s := by
  unfold workerStart
  rw [hA, hQ]

theorem workerStart_eq {s : SystemState} {h : String} {t : List String}
    (hA : s.active = none) (hQ : s.queue = h :: t) {op : Operation}
    (hL : lookupOp s h = some op) :
    workerStart s = ⟨setEntries s.operations h { op with status := .processing },
                     s.counter, t, some h, s.credit⟩ := by
  unfold workerStart
  rw [hA, hQ]
  dsimp only
  rw [hL]
  rfl

theorem workerFinish_noop {sh : Bool} {ccfg : CreditConfig} {s : SystemState}
    {r : Except String BatchResponse} (hA : s.active = none) :
    workerFinish sh ccfg s r = s := by
  unfold workerFinish
  rw [hA]

theorem workerFinish_eq {sh : Bool} {ccfg : CreditConfig} {s : SystemState}
    {aid : String} (hA : s.active = some aid) {op : Operation}
    (hL : lookupOp s aid = some op) (r : Except String BatchResponse) :
    workerFinish sh ccfg s r =
      ⟨setEntries s.operations aid (finishOperation op r),
       s.counter, s.queue, none, trackCredits sh ccfg s.credit r⟩ := by
  unfold workerFinish
  rw [hA]
  dsimp only
  rw [hL]
  rfl

theorem inv_start {s : SystemState} (hInv : Inv s) : Inv (workerStart s) := by
  cases hA : s.active with
  | some a => rw [workerStart_noop_active hA]; exact hInv
  | none =>
    cases hQ : s.queue with
    | nil => rw [workerStart_noop_empty hA hQ]; exact hInv
    | cons h t =>
      obtain ⟨op, hL, hpend⟩ := hInv.queue_pending h (by rw [hQ]; exact List.mem_cons_self h t)
      rw [workerStart_eq hA hQ hL]
      have hnodup := hInv.queue_nodup
      rw [hQ] at hnodup
      have hnotmem : h ∉ t := (List.nodup_cons.mp hnodup).1
      have htnodup : t.Nodup := (List.nodup_cons.mp hnodup).2
      have hopid : op.id = h := hInv.key_id (h, op) (findOp_mem hL)
      constructor
      · intro p hp
        obtain ⟨q, hq, hpq⟩ := mem_setEntries hp
        by_cases hqh : q.1 = h
        · rw [hpq, if_pos (by simpa using hqh)]
          simpa using hopid.trans hqh.symm
        · rw [hpq, if_neg (by simpa using hqh)]
          exact hInv.key_id q hq
      · intro p hp
        obtain ⟨q, hq, hpq⟩ := mem_setEntries hp
        obtain ⟨j, h1, h2, h3⟩ := hInv.key_bound q hq
        refine ⟨j, h1, h2, ?_⟩
        by_cases hqh : q.1 = h
        · rw [hpq, if_pos (by simpa using hqh)]; exact h3
        · rw [hpq, if_neg (by simpa using hqh)]; exact h3
      · intro p hp
        obtain ⟨q, hq, hpq⟩ := mem_setEntries hp
        by_cases hqh : q.1 = h
        · rw [hpq, if_pos (by simpa using hqh)]
          have hwf := hInv.ops_wf (h, op) (findOp_mem hL)
          obtain ⟨h0, hres, herr⟩ := hwf.pending_clean hpend
          exact ⟨hwf.total_eq, hwf.completed_le,
            fun hc => JobStatus.noConfusion hc,
            fun _ => ⟨h0, hres, herr⟩,
            fun hc => JobStatus.noConfusion hc,
            fun hc => JobStatus.noConfusion hc⟩
        · rw [hpq, if_neg (by simpa using hqh)]
          exact hInv.ops_wf q hq
      · intro id hid
        have hid' : id ∈ t := hid
        have hne : id ≠ h := fun hc => hnotmem (hc ▸ hid')
        obtain ⟨op', hop', hst'⟩ :=
          hInv.queue_pending id (by rw [hQ]; exact List.mem_cons_of_mem h hid')
        refine ⟨op', ?_, hst'⟩
        rw [lookupOp_mk, findOp_set_ne _ _ _ _ hne]
        exact hop'
      · intro id hid
        have hidh : id = h := by
          have : (some h : Option String) = some id := hid
          exact (Option.some.inj this).symm
        subst hidh
        refine ⟨{ op with status := .processing }, ?_, rfl⟩
        rw [lookupOp_mk, findOp_set_self]
        rw [show findOp s.operations id = some op from hL]
        rfl
      · exact htnodup

theorem inv_finish {sh : Bool} {ccfg : CreditConfig} {s : SystemState} (hInv : Inv s)
    (r : Except String BatchResponse) : Inv (workerFinish sh ccfg s r) := by
  cases hA : s.active with
  | none => rw [workerFinish_noop hA]; exact hInv
  | some aid =>
    obtain ⟨op, hL, hproc⟩ := hInv.active_processing aid hA
    rw [workerFinish_eq hA hL r]
    have hopid : op.id = aid := hInv.key_id (aid, op) (findOp_mem hL)
    constructor
    · intro p hp
      obtain ⟨q, hq, hpq⟩ := mem_setEntries hp
      by_cases hqh : q.1 = aid
      · rw [hpq, if_pos (by simpa using hqh)]
        show (finishOperation op r).id = q.1
        rw [finishOperation_id, hopid, hqh]
      · rw [hpq, if_neg (by simpa using hqh)]
        exact hInv.key_id q hq
    · intro p hp
      obtain ⟨q, hq, hpq⟩ := mem_setEntries hp
      obtain ⟨j, h1, h2, h3⟩ := hInv.key_bound q hq
      refine ⟨j, h1, h2, ?_⟩
      by_cases hqh : q.1 = aid
      · rw [hpq, if_pos (by simpa using hqh)]; exact h3
      · rw [hpq, if_neg (by simpa using hqh)]; exact h3
    · intro p hp
      obtain ⟨q, hq, hpq⟩ := mem_setEntries hp
      by_cases hqh : q.1 = aid
      · rw [hpq, if_pos (by simpa using hqh)]
        exact opWf_finish (hInv.ops_wf (aid, op) (findOp_mem hL)) hproc r
      · rw [hpq, if_neg (by simpa using hqh)]
        exact hInv.ops_wf q hq
    · intro id hid
      obtain ⟨op', hop', hst'⟩ := hInv.queue_pending id hid
      have hne : id ≠ aid := by
        intro hc
        subst hc
        rw [hop'] at hL
        have heq : op' = op := Option.some.inj hL
        rw [heq] at hst'
        rw [hst'] at hproc
        exact JobStatus.noConfusion hproc
      refine ⟨op', ?_, hst'⟩
      rw [lookupOp_mk, findOp_set_ne _ _ _ _ hne]
      exact hop'
    · intro id hid
      exact Option.noConfusion hid
    · exact hInv.queue_nodup

theorem inv_step {sh : Bool} {ccfg : CreditConfig} {s s' : SystemState}
    (hInv : Inv s) (hstep : Step sh ccfg s s') : Inv s' := by
  cases hstep with
  | submit urls => exact inv_submit hInv urls
  | start => exact inv_start hInv
  | finish r => exact inv_finish hInv r

theorem reachable_inv {sh : Bool} {ccfg : CreditConfig} {s : SystemState}
    (h : Reachable sh ccfg s) : Inv s := by
  induction h with
  | init => exact inv_init
  | step _ hstep ih => exact inv_step ih hstep

/-! ### Terminal records are frozen -/

theorem step_preserves_terminal {sh : Bool} {ccfg : CreditConfig} {s s' : SystemState}
    (hInv : Inv s) (hstep : Step sh ccfg s s') {id : String} {op : Operation}
    (hL : lookupOp s id = some op)
    (hterm : op.status = .completed ∨ op.status = .failed) :
    lookupOp s' id = some op := by
  cases hstep with
  | submit urls => exact lookup_submit_old hInv urls hL
  | start =>
    cases hA : s.active with
    | some a => rw [workerStart_noop_active hA]; exact hL
    | none =>
      cases hQ : s.queue with
      | nil => rw [workerStart_noop_empty hA hQ]; exact hL
      | cons h t =>
        obtain ⟨oph, hLh, hpend⟩ :=
          hInv.queue_pending h (by rw [hQ]; exact List.mem_cons_self h t)
        rw [workerStart_eq hA hQ hLh]
        have hne : id ≠ h := by
          intro hc
          subst hc
          rw [hL] at hLh
          have heq : op = oph := Option.some.inj hLh
          rw [← heq] at hpend
          rcases hterm with hc1 | hc1 <;> rw [hc1] at hpend <;>
            exact JobStatus.noConfusion hpend
        rw [lookupOp_mk, findOp_set_ne _ _ _ _ hne]
        exact hL
  | finish r =>
    cases hA : s.active with
    | none => rw [workerFinish_noop hA]; exact hL
    | some aid =>
      obtain ⟨opa, hLa, hproc⟩ := hInv.active_processing aid hA
      rw [workerFinish_eq hA hLa r]
      have hne : id ≠ aid := by
        intro hc
        subst hc
        rw [hL] at hLa
        have heq : op = opa := Option.some.inj hLa
        rw [← heq] at hproc
        rcases hterm with hc1 | hc1 <;> rw [hc1] at hproc <;>
          exact JobStatus.noConfusion hproc
      rw [lookupOp_mk, findOp_set_ne _ _ _ _ hne]
      exact hL

/-! ### The worker loop processes every queued job -/

theorem workerCycle_step {sh : Bool} {ccfg : CreditConfig} {s : SystemState}
    (r : Except String BatchResponse) (hInv : Inv s) :
    Inv (workerCycle sh ccfg s r) :=
  inv_finish (inv_start hInv) r

theorem runQueue_inv {sh : Bool} {ccfg : CreditConfig} :
    ∀ (rs : List (Except String BatchResponse)) (s : SystemState), Inv s →
      Inv (runQueue sh ccfg s rs)
  | [], _, hInv => hInv
  | _ :: rs, _, hInv => runQueue_inv rs _ (workerCycle_step _ hInv)

theorem runQueue_preserves_terminal {sh : Bool} {ccfg : CreditConfig} :
    ∀ (rs : List (Except String BatchResponse)) (s : SystemState), Inv s →
      ∀ {id : String} {op : Operation}, lookupOp s id = some op →
      (op.status = .completed ∨ op.status = .failed) →
      lookupOp (runQueue sh ccfg s rs) id = some op
  | [], _, _, _, _, hL, _ => hL
  | r :: rs, s, hInv, id, op, hL, hterm => by
    have h1 := step_preserves_terminal hInv
      (@Step.start sh ccfg s) hL hterm
    have h2 := step_preserves_terminal (inv_start hInv)
      (@Step.finish sh ccfg (workerStart s) r) h1 hterm
    exact runQueue_preserves_terminal rs _ (workerCycle_step r hInv) h2 hterm

/-- After one worker cycle on a state with an idle worker and a non-empty
queue, the head job has been driven to its terminal record. -/
theorem workerCycle_head {sh : Bool} {ccfg : CreditConfig} {s : SystemState}
    (hInv : Inv s) {h : String} {t : List String}
    (hA : s.active = none) (hQ : s.queue = h :: t) (r : Except String BatchResponse) :
    ∃ op, lookupOp s h = some op ∧ op.status = .pending ∧
      (workerCycle sh ccfg s r).queue = t ∧
      (workerCycle sh ccfg s r).active = none ∧
      lookupOp (workerCycle sh ccfg s r) h =
        some (finishOperation { op with status := .processing } r) := by
  obtain ⟨op, hL, hpend⟩ := hInv.queue_pending h (by rw [hQ]; exact List.mem_cons_self h t)
  refine ⟨op, hL, hpend, ?_⟩
  have hstart := workerStart_eq hA hQ hL
  have hAct : (workerStart s).active = some h := by rw [hstart]
  have hLup : lookupOp (workerStart s) h = some { op with status := .processing } := by
    rw [hstart, lookupOp_mk, findOp_set_self]
    rw [show findOp s.operations h = some op from hL]
    rfl
  have hfin := @workerFinish_eq sh ccfg (workerStart s) h hAct _ hLup r
  have hLup2 : findOp (workerStart s).operations h =
      some { op with status := .processing } := hLup
  refine ⟨?_, ?_, ?_⟩
  · show (workerFinish sh ccfg (workerStart s) r).queue = t
    rw [hfin]
    show (workerStart s).queue = t
    rw [hstart]
  · show (workerFinish sh ccfg (workerStart s) r).active = none
    rw [hfin]
  · show lookupOp (workerFinish sh ccfg (workerStart s) r) h = _
    rw [hfin, lookupOp_mk, findOp_set_self, hLup2]
    rfl

/-- Failure isolation: with the worker idle and one backend result per
queued job, running the worker loop leaves every queued job in a terminal
state — no failure stops the processing of later jobs. -/
theorem runQueue_processes_all {sh : Bool} {ccfg : CreditConfig} :
    ∀ (rs : List (Except String BatchResponse)) (s : SystemState), Inv s →
      s.active = none → s.queue.length = rs.length →
      ∀ id ∈ s.queue, ∃ op, lookupOp (runQueue sh ccfg s rs) id = some op ∧
        (op.status = .completed ∨ op.status = .failed) := by
  intro rs
  induction rs with
  | nil =>
    intro s _ _ hlen id hid
    rw [List.length_eq_zero.mp hlen] at hid
    exact absurd hid (List.not_mem_nil id)
  | cons r rs ih =>
    intro s hInv hA hlen id hid
    cases hQ : s.queue with
    | nil => rw [hQ] at hid; exact absurd hid (List.not_mem_nil id)
    | cons h t =>
      obtain ⟨op, hL, hpend, hq', ha', hl'⟩ := workerCycle_head hInv hA hQ r
      have hInv' : Inv (workerCycle sh ccfg s r) := workerCycle_step r hInv
      have hlen' : (workerCycle sh ccfg s r).queue.length = rs.length := by
        rw [hq']
        rw [hQ] at hlen
        simpa using hlen
      rw [hQ] at hid
      rcases List.mem_cons.mp hid with rfl | hmem
      · have hterm := finishOperation_terminal { op with status := .processing } r
        refine ⟨finishOperation { op with status := .processing } r, ?_, hterm⟩
        show lookupOp (runQueue sh ccfg (workerCycle sh ccfg s r) rs) id = _
        exact runQueue_preserves_terminal rs _ hInv' hl' hterm
      · have hmem' : id ∈ (workerCycle sh ccfg s r).queue := by rw [hq']; exact hmem
        exact ih (workerCycle sh ccfg s r) hInv' ha' hlen' id hmem'

/-! ## Unfolding equations and runs of `withRetry` -/

theorem withRetry_ok {α : Type} (cfg : RetryConfig) (backend : Nat → CallOutcome α)
    (attempt idx : Nat) (v : α) (hb : backend idx = .ok v) :
    withRetry cfg backend attempt idx = ⟨.ok v, 1, []⟩ := by
  rw [withRetry, hb]

theorem withRetry_retry {α : Type} (cfg : RetryConfig) (backend : Nat → CallOutcome α)
    (attempt idx : Nat) (msg : String) (hb : backend idx = .thrown true msg)
    (hlt : attempt < cfg.maxAttempts) :
    withRetry cfg backend attempt idx =
      ⟨(withRetry cfg backend (attempt + 1) (idx + 1)).result,
       (withRetry cfg backend (attempt + 1) (idx + 1)).calls + 1,
       computeDelay cfg attempt :: (withRetry cfg backend (attempt + 1) (idx + 1)).delays⟩ := by
  rw [withRetry, hb]
  simp [hlt]

theorem withRetry_stop {α : Type} (cfg : RetryConfig) (backend : Nat → CallOutcome α)
    (attempt idx : Nat) (rl : Bool) (msg : String) (hb : backend idx = .thrown rl msg)
    (hstop : rl = false ∨ ¬ attempt < cfg.maxAttempts) :
    withRetry cfg backend attempt idx = ⟨.error msg, 1, []⟩ := by
  rw [withRetry, hb]
  rcases hstop with h | h <;> simp [h]

/-- Every recorded sleep follows the backoff formula: the `i`-th delay of a
run starting at `attempt` is `computeDelay (attempt + i)`. -/
theorem withRetry_delays_get? {α : Type} (cfg : RetryConfig) (backend : Nat → CallOutcome α)
    (attempt idx i : Nat)
    (h : i < (withRetry cfg backend attempt idx).delays.length) :
    (withRetry cfg backend attempt idx).delays.get? i =
      some (computeDelay cfg (attempt + i)) := by
  cases hb : backend idx with
  | ok v =>
    exfalso
    rw [withRetry_ok cfg backend attempt idx v hb] at h
    simp at h
  | thrown rl msg =>
    by_cases hcond : rl = true ∧ attempt < cfg.maxAttempts
    · obtain ⟨hrl, hlt⟩ := hcond
      subst hrl
      rw [withRetry_retry cfg backend attempt idx msg hb hlt] at h ⊢
      cases i with
      | zero => simp
      | succ i =>
        simp only [List.length_cons] at h
        have h' : i < (withRetry cfg backend (attempt + 1) (idx + 1)).delays.length := by
          simpa using h
        have hrec := withRetry_delays_get? cfg backend (attempt + 1) (idx + 1) i h'
        have harg : attempt + 1 + i = attempt + (i + 1) := by omega
        rw [harg] at hrec
        simpa using hrec
    · exfalso
      have hstop : rl = false ∨ ¬ attempt < cfg.maxAttempts := by
        cases rl with
        | false => exact Or.inl rfl
        | true => exact Or.inr fun hlt => hcond ⟨rfl, hlt⟩
      rw [withRetry_stop cfg backend attempt idx rl msg hb hstop] at h
      simp at h
termination_by cfg.maxAttempts - attempt
decreasing_by omega

/-- A run over `k` rate-limit errors followed by a success: the value is
returned and exactly `k + 1` calls are made. -/
theorem withRetry_rl_then_ok {α : Type} (cfg : RetryConfig) (backend : Nat → CallOutcome α) :
    ∀ (k attempt idx : Nat) (v : α),
      (∀ i, i < k → ∃ msg, backend (idx + i) = .thrown true msg) →
      backend (idx + k) = .ok v →
      attempt + k ≤ cfg.maxAttempts →
      (withRetry cfg backend attempt idx).result = .ok v ∧
      (withRetry cfg backend attempt idx).calls = k + 1 := by
  intro k
  induction k with
  | zero =>
    intro attempt idx v _ hok _
    rw [withRetry_ok cfg backend attempt idx v (by simpa using hok)]
    exact ⟨rfl, rfl⟩
  | succ k ih =>
    intro attempt idx v hrl hok hle
    obtain ⟨msg, hmsg⟩ := hrl 0 (Nat.succ_pos k)
    rw [Nat.add_zero] at hmsg
    have hlt : attempt < cfg.maxAttempts := by omega
    rw [withRetry_retry cfg backend attempt idx msg hmsg hlt]
    have hrl' : ∀ i, i < k → ∃ m, backend (idx + 1 + i) = .thrown true m := by
      intro i hi
      obtain ⟨m, hm⟩ := hrl (i + 1) (by omega)
      exact ⟨m, by rw [show idx + 1 + i = idx + (i + 1) by omega]; exact hm⟩
    have hok' : backend (idx + 1 + k) = .ok v := by
      rw [show idx + 1 + k = idx + (k + 1) by omega]
      exact hok
    obtain ⟨hres, hcalls⟩ := ih (attempt + 1) (idx + 1) v hrl' hok' (by omega)
    exact ⟨hres, by rw [hcalls]⟩

/-- A run over nothing but rate-limit errors: the error is re-thrown after
exactly `maxAttempts - attempt + 1` calls. -/
theorem withRetry_rl_exhaust {α : Type} (cfg : RetryConfig) (backend : Nat → CallOutcome α)
    (hall : ∀ i, ∃ msg, backend i = .thrown true msg) :
    ∀ attempt idx, attempt ≤ cfg.maxAttempts →
      (withRetry cfg backend attempt idx).calls = cfg.maxAttempts - attempt + 1 ∧
      ∃ msg, (withRetry cfg backend attempt idx).result = .error msg := by
  intro attempt idx hle
  obtain ⟨msg, hmsg⟩ := hall idx
  by_cases hlt : attempt < cfg.maxAttempts
  · rw [withRetry_retry cfg backend attempt idx msg hmsg hlt]
    obtain ⟨hcalls, hres⟩ := withRetry_rl_exhaust cfg backend hall (attempt + 1) (idx + 1)
      (by omega)
    refine ⟨?_, hres⟩
    simp only [hcalls]
    omega
  · rw [withRetry_stop cfg backend attempt idx true msg hmsg (Or.inr hlt)]
    refine ⟨?_, msg, rfl⟩
    simp only
    omega
termination_by attempt _ => cfg.maxAttempts - attempt
decreasing_by omega

/-! ## Example backends for concrete runs -/

/-- A backend that always reports rate limiting. -/
def rlBackend : Nat → CallOutcome Nat := fun _ => .thrown true "rate limit"

/-- A backend that reports rate limiting on the first call and succeeds on
the second. -/
def rlThenOkBackend : Nat → CallOutcome Nat :=
  fun i => if i = 0 then .thrown true "429" else .ok 42

/-! ## Claims -/

/-- C1: for every configuration and every attempt number `attempt ≥ 1`,
the delay the Call Executor sleeps before the retry of that attempt (the
`attempt - 1`-th recorded delay of an `execute` run, which starts at
attempt 1) equals `min(initialDelay * backoffFactor^(attempt-1), maxDelay)`. -/
theorem c1_backoff_delay {α : Type} (cfg : RetryConfig) (backend : Nat → CallOutcome α)
    (attempt : Nat) (h1 : 1 ≤ attempt)
    (h2 : attempt - 1 < (withRetry cfg backend 1 0).delays.length) :
    (withRetry cfg backend 1 0).delays.get? (attempt - 1) =
      some (min (cfg.initialDelay * cfg.backoffFactor ^ (attempt - 1)) cfg.maxDelay) := by
  rw [withRetry_delays_get? cfg backend 1 0 (attempt - 1) h2]
  have harg : 1 + (attempt - 1) = attempt := by omega
  rw [harg]
  rfl

/-- C1 witness: under the default configuration, against an
always-rate-limited backend, the delay before the retry of attempt 2 is
`min(1000 * 2^1, 10000) = 2000`. -/
theorem c1_backoff_delay_witness :
    1 ≤ 2 ∧
    2 - 1 < (withRetry defaultRetryConfig rlBackend 1 0).delays.length ∧
    (withRetry defaultRetryConfig rlBackend 1 0).delays.get? (2 - 1) =
      some (min (1000 * 2 ^ (2 - 1)) 10000) := by
  have hlen : (withRetry defaultRetryConfig rlBackend 1 0).delays.length = 2 := by
    rw [withRetry_retry defaultRetryConfig rlBackend 1 0 "rate limit" rfl (by decide),
        withRetry_retry defaultRetryConfig rlBackend 2 1 "rate limit" rfl (by decide),
        withRetry_stop defaultRetryConfig rlBackend 3 2 true "rate limit" rfl
          (Or.inr (by decide))]
    rfl
  refine ⟨by decide, by rw [hlen]; decide, ?_⟩
  exact c1_backoff_delay defaultRetryConfig rlBackend 2 (by decide) (by rw [hlen]; decide)

/-- C2: a retry happens iff the error is rate limited and
`attempt < maxAttempts` (conjuncts 1-3: any other situation re-throws at
once after a single call; a rate-limited error below the ceiling performs
one more call than the continuation).  Consequently `k < maxAttempts`
rate-limit errors followed by a success yield the success after exactly
`k + 1` calls (conjunct 4), and an always-rate-limited backend makes the
run fail after exactly `maxAttempts` calls (conjunct 5). -/
theorem c2_retry_iff {α : Type} (cfg : RetryConfig) (backend : Nat → CallOutcome α)
    (hmax : 1 ≤ cfg.maxAttempts) :
    (∀ idx attempt msg, backend idx = .thrown false msg →
      withRetry cfg backend attempt idx = ⟨.error msg, 1, []⟩) ∧
    (∀ idx attempt msg, backend idx = .thrown true msg → ¬ attempt < cfg.maxAttempts →
      withRetry cfg backend attempt idx = ⟨.error msg, 1, []⟩) ∧
    (∀ idx attempt msg, backend idx = .thrown true msg → attempt < cfg.maxAttempts →
      (withRetry cfg backend attempt idx).calls =
        (withRetry cfg backend (attempt + 1) (idx + 1)).calls + 1) ∧
    (∀ (k : Nat) (v : α), k < cfg.maxAttempts →
      (∀ i, i < k → ∃ msg, backend i = .thrown true msg) →
      backend k = .ok v →
      (withRetry cfg backend 1 0).result = .ok v ∧
      (withRetry cfg backend 1 0).calls = k + 1) ∧
    ((∀ i, ∃ msg, backend i = .thrown true msg) →
      (withRetry cfg backend 1 0).calls = cfg.maxAttempts ∧
      ∃ msg, (withRetry cfg backend 1 0).result = .error msg) := by
  refine ⟨?_, ?_, ?_, ?_, ?_⟩
  · intro idx attempt msg hb
    exact withRetry_stop cfg backend attempt idx false msg hb (Or.inl rfl)
  · intro idx attempt msg hb hnlt
    exact withRetry_stop cfg backend attempt idx true msg hb (Or.inr hnlt)
  · intro idx attempt msg hb hlt
    rw [withRetry_retry cfg backend attempt idx msg hb hlt]
  · intro k v hk hrl hok
    refine withRetry_rl_then_ok cfg backend k 1 0 v ?_ ?_ (by omega)
    · intro i hi
      obtain ⟨msg, hmsg⟩ := hrl i hi
      exact ⟨msg, by simpa using hmsg⟩
    · simpa using hok
  · intro hall
    obtain ⟨hcalls, hres⟩ := withRetry_rl_exhaust cfg backend hall 1 0 hmax
    exact ⟨by rw [hcalls]; omega, hres⟩

/-- C2 witness: under the default configuration (maxAttempts 3), one
rate-limit error then a success returns the success after 2 calls, and an
always-rate-limited backend makes 3 calls. -/
theorem c2_retry_iff_witness :
    (withRetry defaultRetryConfig rlThenOkBackend 1 0).result = .ok 42 ∧
    (withRetry defaultRetryConfig rlThenOkBackend 1 0).calls = 1 + 1 ∧
    (withRetry defaultRetryConfig rlBackend 1 0).calls = defaultRetryConfig.maxAttempts := by
  have hscenario := (c2_retry_iff defaultRetryConfig rlThenOkBackend (by decide)).2.2.2.1
    1 42 (by decide)
    (fun i hi => ⟨"429", by interval_cases i; rfl⟩) rfl
  have hexhaust := (c2_retry_iff defaultRetryConfig rlBackend (by decide)).2.2.2.2
    (fun i => ⟨"rate limit", rfl⟩)
  exact ⟨hscenario.1, hscenario.2, hexhaust.1⟩

/-! ## Usage-meter lemmas and claims C3, C9, C10 -/

theorem updateCreditUsage_true (cfg : CreditConfig) (st : CreditUsage) (c : Int) :
    updateCreditUsage true cfg st c = (st, []) := rfl

theorem updateCreditUsage_false_fst (cfg : CreditConfig) (st : CreditUsage) (c : Int) :
    (updateCreditUsage false cfg st c).1 = { st with total := st.total + c } := by
  unfold updateCreditUsage
  simp only [Bool.false_eq_true, if_false]
  split
  · rfl
  · split <;> rfl

theorem updateCreditUsage_false_snd (cfg : CreditConfig) (st : CreditUsage) (c : Int) :
    (updateCreditUsage false cfg st c).2 =
      if cfg.criticalThreshold ≤ st.total + c then [.critical]
      else if cfg.warningThreshold ≤ st.total + c then [.warning]
      else [] := by
  unfold updateCreditUsage
  simp only [Bool.false_eq_true, if_false]
  split
  · rfl
  · split <;> rfl

theorem runRecords_cons (sh : Bool) (cfg : CreditConfig) (st : CreditUsage)
    (c : Int) (cs : List Int) :
    runRecords sh cfg st (c :: cs) =
      ((runRecords sh cfg (updateCreditUsage sh cfg st c).1 cs).1,
       (updateCreditUsage sh cfg st c).2 ::
         (runRecords sh cfg (updateCreditUsage sh cfg st c).1 cs).2) := by
  rcases hu : updateCreditUsage sh cfg st c with ⟨st1, ns⟩
  rcases hr : runRecords sh cfg st1 cs with ⟨stF, rest⟩
  simp only [runRecords, hu, hr]

/-- Number of calls in a run that emitted a critical notification. -/
def countCritical (batches : List (List CreditNotif)) : Nat :=
  batches.countP fun ns => ns.contains .critical

/-- The running total after the `i`-th `record` call of a sequence. -/
def runningTotal (st : CreditUsage) (calls : List Int) (i : Nat) : Int :=
  st.total + (calls.take (i + 1)).sum

/-- C3 counterexample: with the default thresholds and calls of 150 then 1
credits, the total is at or above `criticalThreshold = 100` from the first
call on, and the code emits a critical notification on *both* calls — not
exactly once at the first crossing. -/
theorem c3_counterexample :
    (runRecords false defaultCreditConfig { total := 0, lastCheck := 0 } [150, 1]).2 =
      [[.critical], [.critical]] ∧
    countCritical
      (runRecords false defaultCreditConfig { total := 0, lastCheck := 0 } [150, 1]).2 ≠ 1 := by
  constructor
  · decide
  · decide

/-- C3 amended: in non-self-hosted mode the notification of a `record`
call depends only on the running total after that call — `critical` when
it is at or above `criticalThreshold` (taking precedence), `warning` when
it is below that but at or above `warningThreshold`, and nothing
otherwise.  In particular a notification fires at the first crossing but
is also re-emitted by every later call that keeps the total at or above
the threshold. -/
theorem c3_amended (cfg : CreditConfig) (st : CreditUsage) (calls : List Int)
    (i : Nat) (hi : i < calls.length) :
    (runRecords false cfg st calls).2.get? i =
      some (if cfg.criticalThreshold ≤ runningTotal st calls i then [.critical]
            else if cfg.warningThreshold ≤ runningTotal st calls i then [.warning]
            else []) := by
  induction calls generalizing st i with
  | nil => exact absurd hi (by simp)
  | cons c cs ih =>
    rw [runRecords_cons]
    cases i with
    | zero =>
      simp only [List.get?_cons_zero]
      rw [updateCreditUsage_false_snd]
      have htot : runningTotal st (c :: cs) 0 = st.total + c := by
        simp [runningTotal]
      rw [htot]
    | succ i =>
      simp only [List.get?_cons_succ]
      have hi' : i < cs.length := by simpa using hi
      rw [updateCreditUsage_false_fst]
      rw [ih { st with total := st.total + c } i hi']
      have htot : runningTotal { st with total := st.total + c } cs i =
          runningTotal st (c :: cs) (i + 1) := by
        simp only [runningTotal, List.take_succ_cons, List.sum_cons]
        omega
      rw [htot]

/-- C3 witness for the amended statement: second call of the
counterexample run, still critical. -/
theorem c3_amended_witness :
    1 < ([150, 1] : List Int).length ∧
    (runRecords false defaultCreditConfig { total := 0, lastCheck := 0 } [150, 1]).2.get? 1 =
      some (if defaultCreditConfig.criticalThreshold ≤
              runningTotal { total := 0, lastCheck := 0 } [150, 1] 1 then [.critical]
            else if defaultCreditConfig.warningThreshold ≤
              runningTotal { total := 0, lastCheck := 0 } [150, 1] 1 then [.warning]
            else []) := by
  refine ⟨by decide, ?_⟩
  exact c3_amended defaultCreditConfig { total := 0, lastCheck := 0 } [150, 1] 1 (by decide)

theorem runRecords_total_mono (sh : Bool) (cfg : CreditConfig) :
    ∀ (cs : List Int) (st : CreditUsage), (∀ x ∈ cs, 0 ≤ x) →
      st.total ≤ (runRecords sh cfg st cs).1.total
  | [], _, _ => le_refl _
  | c :: cs, st, h => by
    rw [runRecords_cons]
    have h1 : st.total ≤ (updateCreditUsage sh cfg st c).1.total := by
      cases sh with
      | true => rw [updateCreditUsage_true]
      | false =>
        rw [updateCreditUsage_false_fst]
        have hc : (0 : Int) ≤ c := h c (List.mem_cons_self c cs)
        simp only
        omega
    exact le_trans h1 (runRecords_total_mono sh cfg cs _
      fun x hx => h x (List.mem_cons_of_mem c hx))

/-- C9: when the backend is self-hosted, `record` is a no-op (no total
change and no notification); otherwise a `record` of `c` credits moves the
total by exactly `c`, which for `c ≥ 0` never decreases it, and across any
sequence of non-negative recordings the total is monotone. -/
theorem c9_self_hosted_noop (cfg : CreditConfig) (st : CreditUsage) (c : Int) :
    updateCreditUsage true cfg st c = (st, []) ∧
    (updateCreditUsage false cfg st c).1.total = st.total + c ∧
    (0 ≤ c → st.total ≤ (updateCreditUsage false cfg st c).1.total) ∧
    (∀ (sh : Bool) (cs : List Int), (∀ x ∈ cs, 0 ≤ x) →
      st.total ≤ (runRecords sh cfg st cs).1.total) := by
  refine ⟨updateCreditUsage_true cfg st c, ?_, ?_, ?_⟩
  · rw [updateCreditUsage_false_fst]
  · intro hc
    rw [updateCreditUsage_false_fst]
    simp only
    omega
  · intro sh cs
    exact runRecords_total_mono sh cfg cs st

/-- C9 witness at `c = 5`, thresholds default, one concrete sequence. -/
theorem c9_self_hosted_noop_witness :
    updateCreditUsage true defaultCreditConfig { total := 7, lastCheck := 0 } 5 =
      ({ total := 7, lastCheck := 0 }, []) ∧
    (updateCreditUsage false defaultCreditConfig { total := 7, lastCheck := 0 } 5).1.total =
      7 + 5 ∧
    (0 ≤ (5 : Int) →
      (7 : Int) ≤ (updateCreditUsage false defaultCreditConfig
        { total := 7, lastCheck := 0 } 5).1.total) ∧
    (7 : Int) ≤ (runRecords false defaultCreditConfig
      { total := 7, lastCheck := 0 } [5, 0, 3]).1.total := by
  have h := c9_self_hosted_noop defaultCreditConfig { total := 7, lastCheck := 0 } 5
  exact ⟨h.1, h.2.1, fun hc => h.2.2.1 hc,
    h.2.2.2 false [5, 0, 3] (by decide)⟩

/-- C10: on a single non-self-hosted `record` call, at most one
notification is emitted; when the new total is at or above
`criticalThreshold` it is exactly the critical one (critical takes
precedence over warning); and under the default configuration
(criticalThreshold 100 below warningThreshold 1000) the warning branch
would require a total below 100 yet at least 1000, so a warning is never
emitted. -/
theorem c10_critical_precedence (cfg : CreditConfig) (st : CreditUsage) (c : Int) :
    (updateCreditUsage false cfg st c).2.length ≤ 1 ∧
    (cfg.criticalThreshold ≤ st.total + c →
      (updateCreditUsage false cfg st c).2 = [.critical]) ∧
    (∀ (st' : CreditUsage) (c' : Int),
      CreditNotif.warning ∉ (updateCreditUsage false defaultCreditConfig st' c').2) := by
  refine ⟨?_, ?_, ?_⟩
  · rw [updateCreditUsage_false_snd]
    split
    · simp
    · split <;> simp
  · intro hc
    rw [updateCreditUsage_false_snd, if_pos hc]
  · intro st' c'
    rw [updateCreditUsage_false_snd]
    split
    · simp
    · split
      · rename_i h1 h2
        exfalso
        simp only [defaultCreditConfig] at h1 h2
        omega
      · simp

/-- C10 witness: a call crossing both thresholds emits only the critical
notification. -/
theorem c10_critical_precedence_witness :
    (updateCreditUsage false defaultCreditConfig { total := 0, lastCheck := 0 } 2000).2.length ≤ 1 ∧
    (updateCreditUsage false defaultCreditConfig { total := 0, lastCheck := 0 } 2000).2 =
      [.critical] ∧
    CreditNotif.warning ∉
      (updateCreditUsage false defaultCreditConfig { total := 0, lastCheck := 0 } 2000).2 := by
  have h := c10_critical_precedence defaultCreditConfig { total := 0, lastCheck := 0 } 2000
  exact ⟨h.1, h.2.1 (by decide), h.2.2 { total := 0, lastCheck := 0 } 2000⟩

/-! ## Job-queue claims C4, C6, C7, C8 -/

/-- A helper for C7: no step changes `progress.total` of a stored record. -/
theorem step_preserves_total {sh : Bool} {ccfg : CreditConfig} {s s' : SystemState}
    (hInv : Inv s) (hstep : Step sh ccfg s s') {id : String} {op op' : Operation}
    (hL : lookupOp s id = some op) (hL' : lookupOp s' id = some op') :
    op'.progress.total = op.progress.total := by
  cases hstep with
  | submit urls =>
    have heq : op = op' :=
      Option.some.inj ((lookup_submit_old hInv urls hL).symm.trans hL')
    rw [heq]
  | start =>
    cases hA : s.active with
    | some a =>
      rw [workerStart_noop_active hA] at hL'
      rw [Option.some.inj (hL.symm.trans hL')]
    | none =>
      cases hQ : s.queue with
      | nil =>
        rw [workerStart_noop_empty hA hQ] at hL'
        rw [Option.some.inj (hL.symm.trans hL')]
      | cons h t =>
        obtain ⟨oph, hLh, hpend⟩ :=
          hInv.queue_pending h (by rw [hQ]; exact List.mem_cons_self h t)
        rw [workerStart_eq hA hQ hLh] at hL'
        by_cases hid : id = h
        · subst hid
          rw [lookupOp_mk, findOp_set_self] at hL'
          rw [show findOp s.operations id = some op from hL] at hL'
          have heq : ({ oph with status := .processing } : Operation) = op' :=
            Option.some.inj hL'
          rw [← heq]
          have heq2 : oph = op := Option.some.inj (hLh.symm.trans hL)
          rw [heq2]
        · rw [lookupOp_mk, findOp_set_ne _ _ _ _ hid] at hL'
          rw [Option.some.inj (hL.symm.trans hL')]
  | finish r =>
    cases hA : s.active with
    | none =>
      rw [workerFinish_noop hA] at hL'
      rw [Option.some.inj (hL.symm.trans hL')]
    | some aid =>
      obtain ⟨opa, hLa, hproc⟩ := hInv.active_processing aid hA
      rw [workerFinish_eq hA hLa r] at hL'
      by_cases hid : id = aid
      · subst hid
        rw [lookupOp_mk, findOp_set_self] at hL'
        rw [show findOp s.operations id = some op from hL] at hL'
        have heq : finishOperation opa r = op' := Option.some.inj hL'
        rw [← heq, finishOperation_total]
        have heq2 : opa = op := Option.some.inj (hLa.symm.trans hL)
        rw [heq2]
      · rw [lookupOp_mk, findOp_set_ne _ _ _ _ hid] at hL'
        rw [Option.some.inj (hL.symm.trans hL')]

/-- C4: the worker boundary catches every failure — an erroring backend
call leaves the record `failed` with the failure message in `error`
(conjunct 1), the worker is a total function (no exception escapes), and
hence a worker loop over the whole queue drives every queued job, later
ones included, to a terminal state whatever the mix of results
(conjunct 2). -/
theorem c4_failure_isolation :
    (∀ (op : Operation) (msg : String),
      finishOperation op (.error msg) =
        { op with status := .failed, error := some msg }) ∧
    (∀ (sh : Bool) (ccfg : CreditConfig) (s : SystemState)
      (rs : List (Except String BatchResponse)),
      Reachable sh ccfg s → s.active = none → s.queue.length = rs.length →
      ∀ id ∈ s.queue, ∃ op, lookupOp (runQueue sh ccfg s rs) id = some op ∧
        (op.status = .completed ∨ op.status = .failed)) := by
  constructor
  · intro op msg
    rfl
  · intro sh ccfg s rs hr hA hlen id hid
    exact runQueue_processes_all rs s (reachable_inv hr) hA hlen id hid

/-! ### Concrete executions for the witnesses -/

/-- Two submissions from the initial state: jobs `batch_1` (one URL) and
`batch_2` (two URLs), both pending in the queue. -/
def exState2 : SystemState :=
  (submitBatch (submitBatch initState ["u1"]).1 ["u2", "u3"]).1

def exResults : List (Except String BatchResponse) :=
  [.error "boom", .ok { success := true, errMsg := none, creditsUsed := some 3 }]

theorem exState2_reachable : Reachable false defaultCreditConfig exState2 :=
  Reachable.step
    (Reachable.step Reachable.init (Step.submit initState ["u1"]))
    (Step.submit (submitBatch initState ["u1"]).1 ["u2", "u3"])

/-- The record created for `batch_1`. -/
def exPendingOp : Operation :=
  { id := mkJobId 1, urls := ["u1"], status := .pending,
    progress := { completed := 0, total := 1 }, result := none, error := none }

/-- `exState2` after the worker ran `batch_1` against an erroring call. -/
def exState3 : SystemState :=
  workerFinish false defaultCreditConfig (workerStart exState2) (.error "boom")

theorem exState3_reachable : Reachable false defaultCreditConfig exState3 :=
  Reachable.step
    (Reachable.step exState2_reachable (Step.start exState2))
    (Step.finish (workerStart exState2) (.error "boom"))

/-- The record of `batch_1` after that failing run. -/
def exFailedOp : Operation :=
  { id := mkJobId 1, urls := ["u1"], status := .failed,
    progress := { completed := 0, total := 1 }, result := none, error := some "boom" }

/-- C4 witness: the first queued job fails with the thrown message, and
after the loop consumes one result per job both jobs are terminal. -/
theorem c4_failure_isolation_witness :
    finishOperation exPendingOp (.error "boom") =
      { exPendingOp with status := .failed, error := some "boom" } ∧
    (∃ op, lookupOp (runQueue false defaultCreditConfig exState2 exResults)
        (mkJobId 1) = some op ∧ (op.status = .completed ∨ op.status = .failed)) ∧
    (∃ op, lookupOp (runQueue false defaultCreditConfig exState2 exResults)
        (mkJobId 2) = some op ∧ (op.status = .completed ∨ op.status = .failed)) := by
  refine ⟨c4_failure_isolation.1 exPendingOp "boom", ?_, ?_⟩
  · exact c4_failure_isolation.2 false defaultCreditConfig exState2 exResults
      exState2_reachable rfl rfl (mkJobId 1) (by decide)
  · exact c4_failure_isolation.2 false defaultCreditConfig exState2 exResults
      exState2_reachable rfl rfl (mkJobId 2) (by decide)

/-- C6: in any reachable state, a record in a terminal state is never
changed by any further step (conjunct 1); `result` is set exactly in
`completed` and `error` exactly in `failed`, and neither is set before a
terminal state (conjuncts 2-4). -/
theorem c6_terminal_frozen (sh : Bool) (ccfg : CreditConfig) (s s' : SystemState)
    (hr : Reachable sh ccfg s) (hstep : Step sh ccfg s s')
    (id : String) (op : Operation) (hL : lookupOp s id = some op) :
    ((op.status = .completed ∨ op.status = .failed) → lookupOp s' id = some op) ∧
    (op.status = .completed → op.result.isSome = true ∧ op.error = none) ∧
    (op.status = .failed → op.error.isSome = true ∧ op.result = none) ∧
    ((op.status = .pending ∨ op.status = .processing) →
      op.result = none ∧ op.error = none) := by
  have hInv := reachable_inv hr
  have hwf := hInv.ops_wf (id, op) (findOp_mem hL)
  refine ⟨fun ht => step_preserves_terminal hInv hstep hL ht, ?_, ?_, ?_⟩
  · intro hc
    obtain ⟨h1, h2, _⟩ := hwf.completed_shape hc
    exact ⟨h1, h2⟩
  · intro hc
    obtain ⟨h1, h2⟩ := hwf.failed_shape hc
    exact ⟨h2, h1⟩
  · rintro (hc | hc)
    · obtain ⟨_, h1, h2⟩ := hwf.pending_clean hc
      exact ⟨h1, h2⟩
    · obtain ⟨_, h1, h2⟩ := hwf.processing_clean hc
      exact ⟨h1, h2⟩

/-- C6 witness: the failed `batch_1` record survives a further submission
unchanged, and carries `error` but no `result`. -/
theorem c6_terminal_frozen_witness :
    lookupOp exState3 (mkJobId 1) = some exFailedOp ∧
    lookupOp (submitBatch exState3 ["u4"]).1 (mkJobId 1) = some exFailedOp ∧
    exFailedOp.error.isSome = true ∧ exFailedOp.result = none := by
  have hL : lookupOp exState3 (mkJobId 1) = some exFailedOp := by decide
  have h := c6_terminal_frozen false defaultCreditConfig exState3
    (submitBatch exState3 ["u4"]).1 exState3_reachable
    (Step.submit exState3 ["u4"]) (mkJobId 1) exFailedOp hL
  exact ⟨hL, h.1 (Or.inr rfl), h.2.2.1 rfl⟩

/-- C7: in any reachable state every stored record satisfies
`progress.completed ≤ progress.total`; `progress.total` equals the number
of input URLs, and no step ever changes it; and a `pending` record shows
`progress.completed = 0`. -/
theorem c7_progress (sh : Bool) (ccfg : CreditConfig) (s : SystemState)
    (hr : Reachable sh ccfg s) (id : String) (op : Operation)
    (hL : lookupOp s id = some op) :
    op.progress.completed ≤ op.progress.total ∧
    op.progress.total = op.urls.length ∧
    (op.status = .pending → op.progress.completed = 0) ∧
    (∀ s', Step sh ccfg s s' → ∀ op', lookupOp s' id = some op' →
      op'.progress.total = op.progress.total) := by
  have hInv := reachable_inv hr
  have hwf := hInv.ops_wf (id, op) (findOp_mem hL)
  exact ⟨hwf.completed_le, hwf.total_eq,
    fun hc => (hwf.pending_clean hc).1,
    fun s' hstep op' hL' => step_preserves_total hInv hstep hL hL'⟩

/-- C7 witness: the pending `batch_1` record of a concrete two-submission
state, and an explicit step that keeps its total. -/
theorem c7_progress_witness :
    lookupOp exState2 (mkJobId 1) = some exPendingOp ∧
    exPendingOp.progress.completed ≤ exPendingOp.progress.total ∧
    exPendingOp.progress.total = exPendingOp.urls.length ∧
    (exPendingOp.status = .pending → exPendingOp.progress.completed = 0) := by
  have hL : lookupOp exState2 (mkJobId 1) = some exPendingOp := by decide
  have h := c7_progress false defaultCreditConfig exState2 exState2_reachable
    (mkJobId 1) exPendingOp hL
  exact ⟨hL, h.1, h.2.1, h.2.2.1⟩

/-- C8: the status handler returns the distinct `notFound` outcome exactly
for ids with no record (so never for an assigned id, and the outcome is no
job state and is stored nowhere); for a stored record it reports that
record's current status and progress; and it never mutates the state. -/
theorem c8_status (s : SystemState) (id : String) :
    ((checkBatchStatus s id).1 = .notFound id ↔ lookupOp s id = none) ∧
    (∀ op, lookupOp s id = some op → ∃ e ra,
      (checkBatchStatus s id).1 =
        .payload op.id op.status op.progress.completed op.progress.total e ra) ∧
    (checkBatchStatus s id).2 = s := by
  unfold checkBatchStatus
  cases h : lookupOp s id with
  | none =>
    refine ⟨by simp, ?_, rfl⟩
    intro op hop
    exact Option.noConfusion hop
  | some op =>
    refine ⟨by simp, ?_, rfl⟩
    intro op' hop
    have heq : op = op' := Option.some.inj hop
    subst heq
    exact ⟨_, _, rfl⟩

/-- C8 witness: an id never assigned in a concrete state is reported
`notFound`; the pending job reports its live progress; the state is
returned unchanged. -/
theorem c8_status_witness :
    ((checkBatchStatus exState2 "nope").1 = .notFound "nope" ↔
      lookupOp exState2 "nope" = none) ∧
    (∃ e ra, (checkBatchStatus exState2 (mkJobId 1)).1 =
      .payload exPendingOp.id exPendingOp.status exPendingOp.progress.completed
        exPendingOp.progress.total e ra) ∧
    (checkBatchStatus exState2 "nope").2 = exState2 := by
  have h1 := c8_status exState2 "nope"
  have h2 := c8_status exState2 (mkJobId 1)
  exact ⟨h1.1, h2.2.1 exPendingOp (by decide), h1.2.2⟩

end Firecrawl
